import Mathlib

/-!
Shallow embedding of the core of this repository: the tRPC API client
(src/api_client.py) and the history / spike-cleaning data processor
(src/data_processor.py).

Python floats are embedded as exact rationals, Python dicts as
insertion-ordered association lists, and the effectful parts
(time.time, sleep, HTTP requests) as explicit oracles, state threading
and transition relations.  Loops and the recursive cleaner carry an
explicit fuel argument; the fuel chosen by the wrappers is provably
sufficient for every loop that terminates, and the cleaner's fuel models
the recursion depth (none models unbounded recursion).
-/

/-- JSON values, the payloads moved by the API client. -/
inductive Json where
  | null : Json
  | num (q : ℚ) : Json
  | str (s : String) : Json
  | arr (elems : List Json) : Json
  | obj (fields : List (String × Json)) : Json

/-- The empty JSON object, the Python literal for an empty dict. -/
def jsonEmpty : Json := Json.obj []

/-- A logical tRPC call: method name and parameter object. -/
def Call : Type := String × Json

/-- Outcome of one physical HTTP GET as observed through requests.get:
either the library raised (connection error, timeout), or a response
arrived carrying a 2xx flag and an optional parsed JSON body (none
models an empty response body, for which the code substitutes a default). -/
inductive HttpResult where
  | exn : HttpResult
  | resp (ok2xx : Bool) (body : Option Json) : HttpResult

/-- TRPCClient.call (src/api_client.py lines 56-76).  acq models the
credential-acquisition side effect on the pool state of type σ, outcome
the physical request.  Except.error models a requests.RequestException
escaping the method.  Note that resp.raise_for_status() runs only in
raising mode: in non-raising mode a non-2xx response is parsed and its
payload returned like any other response. -/
def call {σ : Type} (acq : σ → σ) (outcome : HttpResult) (raiseOnError : Bool)
    (st : σ) : Except Unit Json × σ :=
  let st1 := acq st
  match outcome with
  | HttpResult.exn =>
      (if raiseOnError then Except.error () else Except.ok jsonEmpty, st1)
  | HttpResult.resp ok2xx body =>
      if raiseOnError && !ok2xx then (Except.error (), st1)
      else (Except.ok (match body with | some j => j | none => jsonEmpty), st1)

/-- TRPCClient.BATCH_SIZE (line 17). -/
def BATCH_SIZE : Nat := 50

/-- Placeholder results substituted for every call of a failed chunk in
non-raising mode (lines 116 and 120). -/
def chunkPlaceholders (len : Nat) : List Json := List.replicate len jsonEmpty

/-- The chunk loop of TRPCClient.batch_call (lines 92-121).  respond gives
the physical outcome of the chunk request with a given chunk index; the
chunk's parameters only feed the request URL, which the oracle abstracts.
fuel bounds the number of chunks; batch_call supplies calls.length, which
is always sufficient because every chunk consumes at least one call
(the fuel-exhaustion branch is unreachable, see batchCallAux_fuel). -/
def batchCallAux {σ : Type} (acq : σ → σ) (respond : Nat → HttpResult)
    (raiseOnError : Bool) : Nat → Nat → List Call → σ → Except Unit (List Json) × σ
  | _, _, [], st => (Except.ok [], st)
  | 0, _, _ :: _, st => (Except.ok [], st)
  | fuel + 1, idx, c :: rest, st =>
      let chunk := (c :: rest).take BATCH_SIZE
      let restCalls := (c :: rest).drop BATCH_SIZE
      let st1 := acq st
      let withRest := fun (firstPart : List Json) =>
        match batchCallAux acq respond raiseOnError fuel (idx + 1) restCalls st1 with
        | (Except.ok restRes, st2) => (Except.ok (firstPart ++ restRes), st2)
        | (Except.error e, st2) => (Except.error e, st2)
      match respond idx with
      | HttpResult.exn =>
          if raiseOnError then (Except.error (), st1)
          else withRest (chunkPlaceholders chunk.length)
      | HttpResult.resp ok2xx body =>
          if raiseOnError && !ok2xx then (Except.error (), st1)
          else
            match (match body with | some j => j | none => Json.arr []) with
            | Json.arr xs => withRest xs
            | _ =>
                if raiseOnError then (Except.error (), st1)
                else withRest (chunkPlaceholders chunk.length)

/-- TRPCClient.batch_call (lines 78-122). -/
def batch_call {σ : Type} (acq : σ → σ) (respond : Nat → HttpResult)
    (raiseOnError : Bool) (calls : List Call) (st : σ) :
    Except Unit (List Json) × σ :=
  match calls with
  | [] => (Except.ok [], st)
  | _ :: _ => batchCallAux acq respond raiseOnError calls.length 0 calls st

/-- Number of chunks produced by range(0, len(calls), BATCH_SIZE). -/
def numChunks (calls : List Call) : Nat :=
  (calls.length + (BATCH_SIZE - 1)) / BATCH_SIZE

/-- Length of the i-th chunk calls[50*i : 50*i + 50]. -/
def chunkLen (calls : List Call) (i : Nat) : Nat :=
  min BATCH_SIZE (calls.length - BATCH_SIZE * i)

/-- The wire-shape contract of the remote API for one chunk of the given
length: an array body carries exactly one element per chunk call and a
body is never empty.  Exceptions, non-2xx flags and non-array bodies are
unconstrained (they are transport failures). -/
def WellShaped : HttpResult → Nat → Prop
  | HttpResult.exn, _ => True
  | HttpResult.resp _ none, _ => False
  | HttpResult.resp _ (some (Json.arr xs)), len => xs.length = len
  | HttpResult.resp _ (some _), _ => True

/-- The result slot that index-for-index correspondence predicts for the
j-th logical call when chunk numbering starts at idx: the j mod 50 entry
of the array answering chunk j / 50, or the empty placeholder when that
chunk's outcome was not a successful array. -/
def expectedElemAt (respond : Nat → HttpResult) (idx j : Nat) : Json :=
  match respond (idx + j / BATCH_SIZE) with
  | HttpResult.resp _ (some (Json.arr xs)) => xs.getD (j % BATCH_SIZE) Json.null
  | _ => jsonEmpty

/-- Association-list lookup: Python dict membership and indexing
(first matching key wins; dict keys are unique). -/
def alGet {β : Type} (k : String) : List (String × β) → Option β
  | [] => none
  | p :: tl => if p.1 == k then some p.2 else alGet k tl

/-- Association-list update: Python dict assignment (replace in place,
append a fresh key at the end, preserving insertion order). -/
def alSet {β : Type} (k : String) (v : β) : List (String × β) → List (String × β)
  | [] => [(k, v)]
  | p :: tl => if p.1 == k then (k, v) :: tl else p :: alSet k v tl

/-- collections.deque(maxlen=cap).append: append at the right, dropping
the oldest (leftmost) entries once past capacity. -/
def dequePush (cap : Nat) (d : List ℚ) (t : ℚ) : List ℚ :=
  let d2 := d ++ [t]
  if cap < d2.length then d2.drop (d2.length - cap) else d2

/-- The per-credential state of TRPCClient: _key_usage (timestamp deques,
oldest first) plus the position of the itertools.cycle iterator. -/
structure PoolState where
  usage : List (String × List ℚ)
  cursor : Nat

/-- TRPCClient.__init__ (lines 19-27): every key starts with an empty
usage deque and the cycle starts at the first key. -/
def initState (keys : List String) : PoolState :=
  ⟨keys.map (fun k => (k, [])), 0⟩

/-- Rate limit of 200 requests per key (line 24). -/
def RATE_CAP : Nat := 200

/-- The 60 second rate-limit window (line 42). -/
def WINDOW : ℚ := 60

/-- The for-loop of TRPCClient._get_valid_key (lines 32-44): try up to
keys.length keys in cycle order at clock value now; on an eligible key
record now into its usage deque and return it.  none models falling
through to the sleep-and-retry tail, which mutates nothing (the cycle
advances keys.length times, back to the same position modulo the key
count). -/
def tryAcquireAux (keys : List String) (now : ℚ) :
    Nat → PoolState → Option (String × PoolState)
  | 0, _ => none
  | fuel + 1, st =>
      let key := keys.getD (st.cursor % keys.length) ""
      let hist := (alGet key st.usage).getD []
      if hist.length < RATE_CAP then
        some (key, ⟨alSet key (dequePush RATE_CAP hist now) st.usage, st.cursor + 1⟩)
      else if WINDOW < now - hist.headD 0 then
        some (key, ⟨alSet key (dequePush RATE_CAP hist now) st.usage, st.cursor + 1⟩)
      else tryAcquireAux keys now fuel ⟨st.usage, st.cursor + 1⟩

/-- One non-blocking attempt of _get_valid_key. -/
def tryAcquire (keys : List String) (now : ℚ) (st : PoolState) :
    Option (String × PoolState) :=
  tryAcquireAux keys now keys.length st

/-- Pool states reachable from the freshly initialised client through
successful acquisitions at arbitrary clock values.  A failed traversal
leaves the state unchanged, so it adds no transition. -/
inductive Reach (keys : List String) : PoolState → Prop where
  | init : Reach keys (initState keys)
  | step (st : PoolState) (now : ℚ) (k : String) (st2 : PoolState) :
      Reach keys st → tryAcquire keys now st = some (k, st2) → Reach keys st2

/-- The usage deque recorded for one credential. -/
def usageOf (st : PoolState) (k : String) : List ℚ := (alGet k st.usage).getD []

/-- How many recorded issuances fall inside the trailing window ending now. -/
def windowCount (now : ℚ) (l : List ℚ) : Nat :=
  (l.filter (fun t => decide (now - t ≤ WINDOW))).length

/-- The persisted store shape: ordered labels plus per-entity per-metric
sample sequences (src/data_processor.py loader, lines 16-29). -/
structure History where
  labels : List Nat
  items : List (String × List (String × List ℚ))

/-- config.MAX_HISTORY_POINTS (src/config.py line 21). -/
def MAX_HISTORY_POINTS : Nat := 2016

/-- The Python slice l[-n:] for positive n. -/
def takeRight {α : Type} (n : Nat) (l : List α) : List α := l.drop (l.length - n)

/-- DataProcessor._append_metrics (src/data_processor.py lines 37-80).
ts stands for the utc timestamp read at entry.  The first fold is the
ensure-existence loop over the snapshot, the second the metric-append
loop, the final branch the trim to MAX_HISTORY_POINTS. -/
def append_metrics (ts : Nat) (history : History)
    (currentData : List (String × List (String × ℚ))) (metricKeys : List String) :
    History :=
  let labels := history.labels ++ [ts]
  let currentLen := labels.length
  let items1 := currentData.foldl
    (fun acc p => if (alGet p.1 acc).isSome then acc else alSet p.1 [] acc)
    history.items
  let items2 := currentData.foldl
    (fun acc p =>
      let itemHist := (alGet p.1 acc).getD []
      let newHist := metricKeys.foldl
        (fun ih key =>
          let sq := match alGet key ih with
            | some s => s
            | none => List.replicate (currentLen - 1) 0
          let val := (alGet key p.2).getD 0
          alSet key (sq ++ [val]) ih)
        itemHist
      alSet p.1 newHist acc)
    items1
  if MAX_HISTORY_POINTS < labels.length then
    ⟨takeRight MAX_HISTORY_POINTS labels,
     items2.map (fun e => (e.1, e.2.map (fun m => (m.1, takeRight MAX_HISTORY_POINTS m.2))))⟩
  else ⟨labels, items2⟩

/-- The ensure-existence loop of _append_metrics (lines 52-54), named for
modular reasoning; append_metrics_decomp proves it definitionally equal
to the corresponding fold inside append_metrics. -/
def ensureItems (cur : List (String × List (String × ℚ)))
    (items0 : List (String × List (String × List ℚ))) :
    List (String × List (String × List ℚ)) :=
  cur.foldl (fun acc p => if (alGet p.1 acc).isSome then acc else alSet p.1 [] acc) items0

/-- The per-item metric-append loop of _append_metrics (lines 64-71). -/
def updateItemHist (mkeys : List String) (padn : Nat) (em : List (String × ℚ))
    (ih : List (String × List ℚ)) : List (String × List ℚ) :=
  mkeys.foldl (fun ih2 key =>
    alSet key ((match alGet key ih2 with
                | some s => s
                | none => List.replicate padn 0) ++ [(alGet key em).getD 0]) ih2) ih

/-- The snapshot-update loop of _append_metrics (lines 61-71). -/
def updateItems (mkeys : List String) (padn : Nat)
    (cur : List (String × List (String × ℚ)))
    (items1 : List (String × List (String × List ℚ))) :
    List (String × List (String × List ℚ)) :=
  cur.foldl (fun acc p =>
    alSet p.1 (updateItemHist mkeys padn p.2 ((alGet p.1 acc).getD [])) acc) items1

/-- config constants (src/config.py lines 22-24). -/
def THRESHOLD_MULTIPLIER : ℚ := 13/10

def GLOBAL_COEF_MIN : ℚ := 45/100

def GLOBAL_COEF_THRESH : ℚ := 135/100

/-- The no-signal epsilon 0.001 used by the cleaner. -/
def EPS : ℚ := 1/1000

/-- Insertion into a sorted list, stable for equal elements. -/
def insertSorted (x : ℚ) : List ℚ → List ℚ
  | [] => [x]
  | y :: tl => if x ≤ y then x :: y :: tl else y :: insertSorted x tl

/-- Sorting as performed by statistics.median. -/
def sortRat (l : List ℚ) : List ℚ := l.foldr insertSorted []

/-- statistics.median: middle element of the sorted data for odd length,
mean of the two middle elements for even length. -/
def median (l : List ℚ) : ℚ :=
  let s := sortRat l
  if l.length % 2 = 1 then s.getD (l.length / 2) 0
  else (s.getD (l.length / 2 - 1) 0 + s.getD (l.length / 2) 0) / 2

/-- The three profitability metrics read by the cleaner (line 122). -/
def PP_METRICS : List String := ["min_pp", "avg_pp", "max_pp"]

/-- DataProcessor._get_global_thresholds (lines 114-133). -/
def get_global_thresholds (data : History) : ℚ × ℚ :=
  let allValues := data.items.foldl
    (fun acc e =>
      PP_METRICS.foldl
        (fun acc2 metric =>
          match alGet metric e.2 with
          | some l => acc2 ++ l.filter (fun x => decide (EPS < x))
          | none => acc2)
        acc)
    []
  if allValues = [] then (5/100, 15/100)
  else (median allValues * GLOBAL_COEF_MIN, median allValues * GLOBAL_COEF_THRESH)

/-- The fallback-or-median threshold pair derivation applied to an
already collected sample list; shared spec-side shape of the derivation. -/
def thresholdsOfSamples (vals : List ℚ) : ℚ × ℚ :=
  if vals = [] then (5/100, 15/100)
  else (median vals * GLOBAL_COEF_MIN, median vals * GLOBAL_COEF_THRESH)

/-- The sample collection the code performs, written in the spec's
collect-and-filter style: every sample of the three profitability
metrics exceeding the epsilon, in store order. -/
def collectPP (data : History) : List ℚ :=
  data.items.flatMap (fun e =>
    PP_METRICS.flatMap (fun metric =>
      ((alGet metric e.2).getD []).filter (fun x => decide (EPS < x))))

/-- Following the spec's words for deriveThresholds (spec section 4.5):
collect every sample across EVERY metric of every entity whose value
exceeds the epsilon, then fall back or take the median pair.  Stated for
comparison with get_global_thresholds, which reads only the three
profitability metrics. -/
def deriveThresholdsSpec (data : History) : ℚ × ℚ :=
  thresholdsOfSamples
    (data.items.flatMap (fun e =>
      e.2.flatMap (fun m => m.2.filter (fun x => decide (EPS < x)))))

/-- Python round(x, 4): scale by 10^4 and round to the nearest integer,
ties to even. -/
def roundHalfEven (q : ℚ) : ℤ :=
  let f := ⌊q⌋
  if q - f < 1/2 then f
  else if (1:ℚ)/2 < q - f then f + 1
  else if f % 2 = 0 then f else f + 1

/-- round(x, 4) on exact rationals. -/
def round4 (x : ℚ) : ℚ := (roundHalfEven (x * 10000) : ℚ) / 10000

/-- The linear interpolation target prev + step * (k + 1) (line 177). -/
def expectedVal (prevVal stepSize : ℚ) (k : Nat) : ℚ := prevVal + stepSize * (k + 1)

/-- The group-outlier test for one window size (lines 169-185): the
bounds check i < n - size, then every interior sample must exceed both
its interpolated value scaled by the multiplier and the global
threshold. -/
def groupOk (minValThresh : ℚ) (cleaned : List ℚ) (n i size : Nat) : Bool :=
  decide (i < n - size) &&
    (let prevVal := cleaned.getD (i - 1) 0
     let endNeighborVal := cleaned.getD (i + size) 0
     let stepSize := (endNeighborVal - prevVal) / (size + 1)
     (List.range size).all (fun k =>
       let checkVal := cleaned.getD (i + k) 0
       decide (expectedVal prevVal stepSize k * THRESHOLD_MULTIPLIER < checkVal) &&
         decide (minValThresh < checkVal)))

/-- The window sizes tried by the group-outlier scan, largest first. -/
def GROUP_SIZES : List Nat := [5, 4, 3, 2]

/-- Overwrite the size interior samples with their rounded interpolated
values (lines 187-189); the interpolation reads positions i - 1 and
i + size, which the writes never touch. -/
def applyGroup (cleaned : List ℚ) (i size : Nat) : List ℚ :=
  let prevVal := cleaned.getD (i - 1) 0
  let endNeighborVal := cleaned.getD (i + size) 0
  let stepSize := (endNeighborVal - prevVal) / (size + 1)
  (List.range size).foldl
    (fun c k => c.set (i + k) (round4 (expectedVal prevVal stepSize k))) cleaned

/-- The while-loop of _smooth_series (lines 147-210), fuel-indexed: every
iteration consumes one fuel and advances i by at least one while the
guard needs i < n - 1, so the fuel n + 1 supplied by smoothPass never
runs out (see passLoop_fuel). -/
def passLoop (minAbsVal minValThresh : ℚ) :
    Nat → List ℚ → Nat → Nat → List ℚ × Nat
  | 0, cleaned, _, changes => (cleaned, changes)
  | fuel + 1, cleaned, i, changes =>
      let n := cleaned.length
      if i < n - 1 then
        let prevVal := cleaned.getD (i - 1) 0
        let currVal := cleaned.getD i 0
        if currVal < minAbsVal then
          let nextVal := cleaned.getD (i + 1) 0
          let avg := (prevVal + nextVal) / 2
          let avg2 := if avg < minAbsVal then minAbsVal * (11/10) else avg
          passLoop minAbsVal minValThresh fuel (cleaned.set i (round4 avg2)) (i + 1) (changes + 1)
        else if prevVal ≤ EPS then
          passLoop minAbsVal minValThresh fuel cleaned (i + 1) changes
        else
          match GROUP_SIZES.find? (fun size => groupOk minValThresh cleaned n i size) with
          | some size =>
              passLoop minAbsVal minValThresh fuel (applyGroup cleaned i size) (i + size) (changes + size)
          | none =>
              let nextVal := cleaned.getD (i + 1) 0
              if EPS < nextVal then
                let expected := (prevVal + nextVal) / 2
                if expected * THRESHOLD_MULTIPLIER < currVal ∧ minValThresh < currVal then
                  passLoop minAbsVal minValThresh fuel (cleaned.set i (round4 expected)) (i + 1) (changes + 1)
                else passLoop minAbsVal minValThresh fuel cleaned (i + 1) changes
              else passLoop minAbsVal minValThresh fuel cleaned (i + 1) changes
      else (cleaned, changes)

/-- One full pass of _smooth_series over a copy of the series. -/
def smoothPass (series : List ℚ) (minAbsVal minValThresh : ℚ) : List ℚ × Nat :=
  passLoop minAbsVal minValThresh (series.length + 1) series 1 0

/-- _smooth_series (lines 135-219): run a pass, and while it fixed
anything re-run recursively, totalling the fix counts.  fuel bounds the
recursion depth; none models recursion that never reaches a zero-fix
pass (in Python an eventual RecursionError). -/
def smooth_series : Nat → List ℚ → ℚ → ℚ → Option (List ℚ × Nat)
  | 0, series, minAbsVal, minValThresh =>
      let p := smoothPass series minAbsVal minValThresh
      if p.2 = 0 then some p else none
  | fuel + 1, series, minAbsVal, minValThresh =>
      let p := smoothPass series minAbsVal minValThresh
      if p.2 = 0 then some p
      else
        match smooth_series fuel p.1 minAbsVal minValThresh with
        | some q => some (q.1, p.2 + q.2)
        | none => none

/-- The series obtained after k passes of the cleaner. -/
def iterSeries (minAbsVal minValThresh : ℚ) (series : List ℚ) : Nat → List ℚ
  | 0 => series
  | k + 1 => (smoothPass (iterSeries minAbsVal minValThresh series k) minAbsVal minValThresh).1

/-- _smooth_series terminates on this input: some recursion depth makes
it return. -/
def smoothTerminatesOn (series : List ℚ) (minAbsVal minValThresh : ℚ) : Prop :=
  ∃ fuel r, smooth_series fuel series minAbsVal minValThresh = some r

/-- Boolean rational equality through the order, used to evaluate
concrete runs of the embedding (the antisymmetry bridge is eqb_eq). -/
def eqb (a b : ℚ) : Bool := decide (a ≤ b) && decide (b ≤ a)

/-- Pointwise boolean equality of rational lists. -/
def eqbL : List ℚ → List ℚ → Bool
  | [], [] => true
  | a :: l, b :: m => eqb a b && eqbL l m
  | _, _ => false

theorem eqb_eq {a b : ℚ} (h : eqb a b = true) : a = b := by
  simp only [eqb, Bool.and_eq_true, decide_eq_true_eq] at h
  exact le_antisymm h.1 h.2

theorem eqbL_eq : ∀ {l m : List ℚ}, eqbL l m = true → l = m
  | [], [], _ => rfl
  | a :: l, b :: m, h => by
      simp only [eqbL, Bool.and_eq_true] at h
      rw [eqb_eq h.1, eqbL_eq h.2]

theorem foldl_length_preserved {α : Type} (f : List ℚ → α → List ℚ)
    (hf : ∀ xs k, (f xs k).length = xs.length) :
    ∀ (ks : List α) (xs : List ℚ), (ks.foldl f xs).length = xs.length
  | [], _ => rfl
  | k :: ks, xs => by
      simp only [List.foldl_cons]
      rw [foldl_length_preserved f hf ks (f xs k), hf]

theorem foldl_getElem_preserved {α : Type} (f : List ℚ → α → List ℚ) (m : Nat) :
    ∀ (ks : List α), (∀ xs k, k ∈ ks → (f xs k)[m]? = xs[m]?) →
      ∀ xs : List ℚ, (ks.foldl f xs)[m]? = xs[m]?
  | [], _, _ => rfl
  | k :: ks, hf, xs => by
      simp only [List.foldl_cons]
      rw [foldl_getElem_preserved f m ks
        (fun ys k2 hk2 => hf ys k2 (List.mem_cons_of_mem k hk2)) (f xs k),
        hf xs k (List.mem_cons_self k ks)]

theorem applyGroup_length (xs : List ℚ) (i size : Nat) :
    (applyGroup xs i size).length = xs.length := by
  unfold applyGroup
  exact foldl_length_preserved _ (fun ys k => List.length_set ys _ _) _ _

theorem applyGroup_getElem (xs : List ℚ) (i size m : Nat)
    (h : ∀ k, k < size → i + k ≠ m) :
    (applyGroup xs i size)[m]? = xs[m]? := by
  unfold applyGroup
  exact foldl_getElem_preserved _ m _
    (fun ys k hk => List.getElem?_set_ne (h k (List.mem_range.mp hk))) xs

theorem groupOk_bound {t : ℚ} {xs : List ℚ} {n i size : Nat}
    (h : groupOk t xs n i size = true) : i < n - size := by
  simp only [groupOk, Bool.and_eq_true, decide_eq_true_eq] at h
  exact h.1

theorem find_group_size_ge {t : ℚ} {xs : List ℚ} {n i size : Nat}
    (h : GROUP_SIZES.find? (fun size => groupOk t xs n i size) = some size) :
    2 ≤ size := by
  have hmem := List.mem_of_find?_eq_some h
  have h5 : size = 5 ∨ size = 4 ∨ size = 3 ∨ size = 2 := by
    simpa [GROUP_SIZES] using hmem
  omega

/-- The combined loop invariant of the while-loop: a pass preserves the
series length, never decreases the fix counter, leaves the series
untouched when it counts no fix, and never writes the first or the last
position. -/
theorem passLoop_main (a t : ℚ) :
    ∀ (fuel : Nat) (xs : List ℚ) (i ch : Nat), 1 ≤ i →
      (passLoop a t fuel xs i ch).1.length = xs.length ∧
      ch ≤ (passLoop a t fuel xs i ch).2 ∧
      ((passLoop a t fuel xs i ch).2 = ch → (passLoop a t fuel xs i ch).1 = xs) ∧
      ((passLoop a t fuel xs i ch).1)[0]? = xs[0]? ∧
      ((passLoop a t fuel xs i ch).1)[xs.length - 1]? = xs[xs.length - 1]? := by
  intro fuel
  induction fuel with
  | zero =>
      intro xs i ch _
      exact ⟨rfl, Nat.le_refl ch, fun _ => rfl, rfl, rfl⟩
  | succ fuel IH =>
      intro xs i ch hi
      by_cases h1 : i < xs.length - 1
      case neg =>
        rw [passLoop]
        rw [if_neg h1]
        exact ⟨rfl, Nat.le_refl ch, fun _ => rfl, rfl, rfl⟩
      case pos =>
        have hi0 : i ≠ 0 := by omega
        have hilast : i ≠ xs.length - 1 := by omega
        by_cases h2 : xs.getD i 0 < a
        case pos =>
          rw [passLoop]
          simp only [if_pos h1, if_pos h2]
          obtain ⟨L, M, Z, H0, HL⟩ :=
            IH (xs.set i (round4 (if (xs.getD (i - 1) 0 + xs.getD (i + 1) 0) / 2 < a then
              a * (11/10) else (xs.getD (i - 1) 0 + xs.getD (i + 1) 0) / 2))) (i + 1) (ch + 1)
              (by omega)
          rw [List.length_set] at L HL
          refine ⟨L, by omega, fun hz => absurd hz (by omega), ?_, ?_⟩
          · rw [H0, List.getElem?_set_ne hi0]
          · rw [HL, List.getElem?_set_ne hilast]
        case neg =>
          by_cases h3 : xs.getD (i - 1) 0 ≤ EPS
          case pos =>
            rw [passLoop]
            simp only [if_pos h1, if_neg h2, if_pos h3]
            exact IH xs (i + 1) ch (by omega)
          case neg =>
            cases hfind : GROUP_SIZES.find? (fun size => groupOk t xs xs.length i size) with
            | some size =>
                have hsz := find_group_size_ge hfind
                have hbound := groupOk_bound (List.find?_some hfind)
                rw [passLoop]
                simp only [if_pos h1, if_neg h2, if_neg h3, hfind]
                obtain ⟨L, M, Z, H0, HL⟩ :=
                  IH (applyGroup xs i size) (i + size) (ch + size) (by omega)
                rw [applyGroup_length] at L HL
                refine ⟨L, by omega, fun hz => absurd hz (by omega), ?_, ?_⟩
                · rw [H0, applyGroup_getElem _ _ _ _ (fun k hk => by omega)]
                · rw [HL, applyGroup_getElem _ _ _ _ (fun k hk => by omega)]
            | none =>
                by_cases h4 : EPS < xs.getD (i + 1) 0
                case pos =>
                  by_cases h5 : (xs.getD (i - 1) 0 + xs.getD (i + 1) 0) / 2 *
                      THRESHOLD_MULTIPLIER < xs.getD i 0 ∧ t < xs.getD i 0
                  case pos =>
                    rw [passLoop]
                    simp only [if_pos h1, if_neg h2, if_neg h3, hfind, if_pos h4, if_pos h5]
                    obtain ⟨L, M, Z, H0, HL⟩ :=
                      IH (xs.set i (round4 ((xs.getD (i - 1) 0 + xs.getD (i + 1) 0) / 2)))
                        (i + 1) (ch + 1) (by omega)
                    rw [List.length_set] at L HL
                    refine ⟨L, by omega, fun hz => absurd hz (by omega), ?_, ?_⟩
                    · rw [H0, List.getElem?_set_ne hi0]
                    · rw [HL, List.getElem?_set_ne hilast]
                  case neg =>
                    rw [passLoop]
                    simp only [if_pos h1, if_neg h2, if_neg h3, hfind, if_pos h4, if_neg h5]
                    exact IH xs (i + 1) ch (by omega)
                case neg =>
                  rw [passLoop]
                  simp only [if_pos h1, if_neg h2, if_neg h3, hfind, if_neg h4]
                  exact IH xs (i + 1) ch (by omega)

theorem smoothPass_length (s : List ℚ) (a t : ℚ) :
    (smoothPass s a t).1.length = s.length :=
  (passLoop_main a t (s.length + 1) s 1 0 (Nat.le_refl 1)).1

theorem smoothPass_zero_fixes {s : List ℚ} {a t : ℚ}
    (h : (smoothPass s a t).2 = 0) : (smoothPass s a t).1 = s :=
  (passLoop_main a t (s.length + 1) s 1 0 (Nat.le_refl 1)).2.2.1 h

theorem smoothPass_frame (s : List ℚ) (a t : ℚ) :
    (smoothPass s a t).1.length = s.length ∧
    (smoothPass s a t).1.head? = s.head? ∧
    (smoothPass s a t).1.getLast? = s.getLast? := by
  obtain ⟨L, M, Z, H0, HL⟩ := passLoop_main a t (s.length + 1) s 1 0 (Nat.le_refl 1)
  simp only [smoothPass]
  refine ⟨L, ?_, ?_⟩
  · rw [List.head?_eq_getElem?, List.head?_eq_getElem?]
    exact H0
  · rw [List.getLast?_eq_getElem?, List.getLast?_eq_getElem?, L]
    exact HL

theorem smoothPass_short {s : List ℚ} (a t : ℚ) (h : s.length ≤ 2) :
    smoothPass s a t = (s, 0) := by
  rw [smoothPass, passLoop, if_neg (by omega)]

theorem smooth_series_zero_fix (fuel : Nat) (s : List ℚ) (a t : ℚ)
    (h : (smoothPass s a t).2 = 0) :
    smooth_series fuel s a t = some (smoothPass s a t) := by
  cases fuel with
  | zero => simp [smooth_series, h]
  | succ fuel => simp [smooth_series, h]

theorem smooth_series_zero_pos (s : List ℚ) (a t : ℚ)
    (h : (smoothPass s a t).2 ≠ 0) : smooth_series 0 s a t = none := by
  simp [smooth_series, h]

theorem smooth_series_succ_pos (fuel : Nat) (s : List ℚ) (a t : ℚ) {q : List ℚ × Nat}
    (h : (smoothPass s a t).2 ≠ 0)
    (hq : smooth_series fuel (smoothPass s a t).1 a t = some q) :
    smooth_series (fuel + 1) s a t = some (q.1, (smoothPass s a t).2 + q.2) := by
  simp [smooth_series, h, hq]

theorem smooth_series_succ_none (fuel : Nat) (s : List ℚ) (a t : ℚ)
    (h : (smoothPass s a t).2 ≠ 0)
    (hq : smooth_series fuel (smoothPass s a t).1 a t = none) :
    smooth_series (fuel + 1) s a t = none := by
  simp [smooth_series, h, hq]

theorem smooth_series_result_fixed :
    ∀ (fuel : Nat) (s : List ℚ) (a t : ℚ) (cl : List ℚ) (k : Nat),
      smooth_series fuel s a t = some (cl, k) → smoothPass cl a t = (cl, 0) := by
  intro fuel
  induction fuel with
  | zero =>
      intro s a t cl k h
      by_cases hz : (smoothPass s a t).2 = 0
      · rw [smooth_series_zero_fix 0 s a t hz] at h
        have h3 : (smoothPass s a t).1 = cl := congrArg Prod.fst (Option.some.inj h)
        have h1 : cl = s := by
          rw [← h3]
          exact smoothPass_zero_fixes hz
        rw [h1]
        conv_rhs => rw [← smoothPass_zero_fixes hz, ← hz]
      · rw [smooth_series_zero_pos s a t hz] at h
        cases h
  | succ fuel IH =>
      intro s a t cl k h
      by_cases hz : (smoothPass s a t).2 = 0
      · rw [smooth_series_zero_fix (fuel + 1) s a t hz] at h
        have h3 : (smoothPass s a t).1 = cl := congrArg Prod.fst (Option.some.inj h)
        have h1 : cl = s := by
          rw [← h3]
          exact smoothPass_zero_fixes hz
        rw [h1]
        conv_rhs => rw [← smoothPass_zero_fixes hz, ← hz]
      · cases hq : smooth_series fuel (smoothPass s a t).1 a t with
        | none =>
            rw [smooth_series_succ_none fuel s a t hz hq] at h
            cases h
        | some q =>
            rw [smooth_series_succ_pos fuel s a t hz hq] at h
            have h1 : q.1 = cl := congrArg Prod.fst (Option.some.inj h)
            exact h1 ▸ IH (smoothPass s a t).1 a t q.1 q.2 (by rw [hq])

/-- C4: _smooth_series is idempotent: whenever it returns (cleaned, n),
running it again on cleaned returns (cleaned, 0), at any recursion
budget. -/
theorem smooth_series_idempotent (fuel fuel2 : Nat) (s : List ℚ) (a t : ℚ)
    (cl : List ℚ) (k : Nat) (h : smooth_series fuel s a t = some (cl, k)) :
    smooth_series fuel2 cl a t = some (cl, 0) := by
  have hf := smooth_series_result_fixed fuel s a t cl k h
  have hz : (smoothPass cl a t).2 = 0 := by rw [hf]
  rw [smooth_series_zero_fix fuel2 cl a t hz, hf]

/-- Witness for C4: the one-element series is returned unchanged, and
re-running on the output yields it again with zero fixes. -/
theorem smooth_series_idempotent_witness :
    smooth_series 3 [(5:ℚ)] (1/20) (3/20) = some ([(5:ℚ)], 0) :=
  smooth_series_idempotent 0 3 [(5:ℚ)] (1/20) (3/20) [(5:ℚ)] 0 (by rfl)

/-- C5: on [1,1,1,10,1,1] with minAbs 0.05 and threshold 0.15 (multiplier
1.3 from config) the cleaner corrects exactly the single spike at index 3
to the neighbour midpoint 1 and reports one fix. -/
theorem smooth_series_single_spike_eval :
    smooth_series 1 [1, 1, 1, 10, 1, 1] (1/20) (3/20) = some ([1, 1, 1, 1, 1, 1], 1) := by
  have h1 : (smoothPass [1, 1, 1, 10, 1, 1] (1/20) (3/20)).1 = [1, 1, 1, 1, 1, 1] :=
    eqbL_eq (by with_unfolding_all decide)
  have h2 : (smoothPass [1, 1, 1, 10, 1, 1] (1/20) (3/20)).2 = 1 := by
    with_unfolding_all decide
  have h3 : (smoothPass [1, 1, 1, 1, 1, 1] (1/20) (3/20)).2 = 0 := by
    with_unfolding_all decide
  have h5 : smoothPass [1, 1, 1, 1, 1, 1] (1/20) (3/20) = ([1, 1, 1, 1, 1, 1], 0) := by
    conv_rhs => rw [← smoothPass_zero_fixes h3, ← h3]
  have hq : smooth_series 0 (smoothPass [1, 1, 1, 10, 1, 1] (1/20) (3/20)).1 (1/20) (3/20)
      = some ([1, 1, 1, 1, 1, 1], 0) := by
    rw [h1, smooth_series_zero_fix 0 _ _ _ h3, h5]
  rw [smooth_series_succ_pos 0 _ _ _ (by rw [h2]; exact Nat.one_ne_zero) hq, h2]
  rfl

/-- A series that one pass maps to itself while still counting a fix
makes the recursion run forever. -/
theorem smooth_series_stuck {s : List ℚ} {a t : ℚ}
    (h1 : (smoothPass s a t).1 = s) (h2 : (smoothPass s a t).2 ≠ 0) :
    ∀ fuel, smooth_series fuel s a t = none := by
  intro fuel
  induction fuel with
  | zero => exact smooth_series_zero_pos s a t h2
  | succ fuel IH =>
      refine smooth_series_succ_none fuel s a t h2 ?_
      rw [h1]
      exact IH

/-- C3 counterexample: on [0.05001, 0.01, 0.05] with minAbs 0.050002 the
dip guard keeps reassigning index 1 the value round4 of 0.050005, namely
0.05, which stays below minAbs; every pass counts one fix while changing
nothing, so no recursion depth suffices and the Python code recurses
unboundedly. -/
theorem smooth_series_nontermination_cex :
    ¬ smoothTerminatesOn [5001/100000, 1/100, 1/20] (25001/500000) (3/20) := by
  have hstep1 : (smoothPass [5001/100000, 1/100, 1/20] (25001/500000) (3/20)).1
      = [5001/100000, 1/20, 1/20] := eqbL_eq (by with_unfolding_all decide)
  have hstep2 : (smoothPass [5001/100000, 1/100, 1/20] (25001/500000) (3/20)).2 = 1 := by
    with_unfolding_all decide
  have hfix1 : (smoothPass [5001/100000, 1/20, 1/20] (25001/500000) (3/20)).1
      = [5001/100000, 1/20, 1/20] := eqbL_eq (by with_unfolding_all decide)
  have hfix2 : (smoothPass [5001/100000, 1/20, 1/20] (25001/500000) (3/20)).2 = 1 := by
    with_unfolding_all decide
  rintro ⟨fuel, r, hr⟩
  have hnone : smooth_series fuel [5001/100000, 1/100, 1/20] (25001/500000) (3/20) = none := by
    cases fuel with
    | zero =>
        exact smooth_series_zero_pos _ _ _ (by rw [hstep2]; exact Nat.one_ne_zero)
    | succ fuel =>
        refine smooth_series_succ_none fuel _ _ _ (by rw [hstep2]; exact Nat.one_ne_zero) ?_
        rw [hstep1]
        exact smooth_series_stuck hfix1 (by rw [hfix2]; exact Nat.one_ne_zero) fuel
  rw [hnone] at hr
  cases hr

theorem iterSeries_shift (a t : ℚ) (s : List ℚ) :
    ∀ k, iterSeries a t s (k + 1) = iterSeries a t (smoothPass s a t).1 k
  | 0 => rfl
  | k + 1 => by
      show (smoothPass (iterSeries a t s (k + 1)) a t).1
          = (smoothPass (iterSeries a t (smoothPass s a t).1 k) a t).1
      rw [iterSeries_shift a t s k]

theorem smooth_terminates_of_iter :
    ∀ (k : Nat) (s : List ℚ) (a t : ℚ),
      (smoothPass (iterSeries a t s k) a t).2 = 0 → smoothTerminatesOn s a t := by
  intro k
  induction k with
  | zero =>
      intro s a t h
      exact ⟨0, smoothPass s a t, smooth_series_zero_fix 0 s a t h⟩
  | succ k IH =>
      intro s a t h
      rw [iterSeries_shift a t s k] at h
      obtain ⟨fuel, r, hr⟩ := IH (smoothPass s a t).1 a t h
      by_cases hz : (smoothPass s a t).2 = 0
      · exact ⟨0, smoothPass s a t, smooth_series_zero_fix 0 s a t hz⟩
      · refine ⟨fuel + 1, (r.1, (smoothPass s a t).2 + r.2), ?_⟩
        exact smooth_series_succ_pos fuel s a t hz (by rw [hr])

theorem smooth_iter_of_terminates :
    ∀ (fuel : Nat) (s : List ℚ) (a t : ℚ) (r : List ℚ × Nat),
      smooth_series fuel s a t = some r →
      ∃ k, (smoothPass (iterSeries a t s k) a t).2 = 0 := by
  intro fuel
  induction fuel with
  | zero =>
      intro s a t r h
      by_cases hz : (smoothPass s a t).2 = 0
      · exact ⟨0, hz⟩
      · rw [smooth_series_zero_pos s a t hz] at h
        cases h
  | succ fuel IH =>
      intro s a t r h
      by_cases hz : (smoothPass s a t).2 = 0
      · exact ⟨0, hz⟩
      · cases hq : smooth_series fuel (smoothPass s a t).1 a t with
        | none =>
            rw [smooth_series_succ_none fuel s a t hz hq] at h
            cases h
        | some q =>
            obtain ⟨k, hk⟩ := IH (smoothPass s a t).1 a t q hq
            exact ⟨k + 1, by rw [iterSeries_shift a t s k]; exact hk⟩

/-- C3 amended: the recursion terminates exactly when finitely many
passes reach a pass with zero fixes; by the counterexample above this is
not the case for every input, so _smooth_series does not terminate on
every series and threshold pair. -/
theorem smooth_series_terminates_iff (s : List ℚ) (a t : ℚ) :
    smoothTerminatesOn s a t ↔ ∃ k, (smoothPass (iterSeries a t s k) a t).2 = 0 := by
  constructor
  · rintro ⟨fuel, r, hr⟩
    exact smooth_iter_of_terminates fuel s a t r hr
  · rintro ⟨k, hk⟩
    exact smooth_terminates_of_iter k s a t hk

theorem smooth_series_frame_aux :
    ∀ (fuel : Nat) (s : List ℚ) (a t : ℚ) (cl : List ℚ) (k : Nat),
      smooth_series fuel s a t = some (cl, k) →
      cl.length = s.length ∧ cl.head? = s.head? ∧ cl.getLast? = s.getLast? := by
  intro fuel
  induction fuel with
  | zero =>
      intro s a t cl k h
      by_cases hz : (smoothPass s a t).2 = 0
      · rw [smooth_series_zero_fix 0 s a t hz] at h
        have h3 : (smoothPass s a t).1 = cl := congrArg Prod.fst (Option.some.inj h)
        have h1 : cl = s := by
          rw [← h3]
          exact smoothPass_zero_fixes hz
        rw [h1]
        exact ⟨rfl, rfl, rfl⟩
      · rw [smooth_series_zero_pos s a t hz] at h
        cases h
  | succ fuel IH =>
      intro s a t cl k h
      by_cases hz : (smoothPass s a t).2 = 0
      · rw [smooth_series_zero_fix (fuel + 1) s a t hz] at h
        have h3 : (smoothPass s a t).1 = cl := congrArg Prod.fst (Option.some.inj h)
        have h1 : cl = s := by
          rw [← h3]
          exact smoothPass_zero_fixes hz
        rw [h1]
        exact ⟨rfl, rfl, rfl⟩
      · cases hq : smooth_series fuel (smoothPass s a t).1 a t with
        | none =>
            rw [smooth_series_succ_none fuel s a t hz hq] at h
            cases h
        | some q =>
            rw [smooth_series_succ_pos fuel s a t hz hq] at h
            have h1 : q.1 = cl := congrArg Prod.fst (Option.some.inj h)
            obtain ⟨L2, H2, G2⟩ := IH (smoothPass s a t).1 a t q.1 q.2 (by rw [hq])
            obtain ⟨L1, H1, G1⟩ := smoothPass_frame s a t
            rw [← h1]
            exact ⟨L2.trans L1, H2.trans H1, G2.trans G1⟩

/-- C9: whenever _smooth_series returns, the cleaned series has the
input's length and keeps the input's first and last elements; a series
of length at most two is always returned unchanged with zero fixes (the
embedding is pure, so the input list itself is never mutated). -/
theorem smooth_series_frame :
    (∀ (fuel : Nat) (s : List ℚ) (a t : ℚ) (cl : List ℚ) (k : Nat),
        smooth_series fuel s a t = some (cl, k) →
        cl.length = s.length ∧ cl.head? = s.head? ∧ cl.getLast? = s.getLast?) ∧
    (∀ (fuel : Nat) (s : List ℚ) (a t : ℚ), s.length ≤ 2 →
        smooth_series fuel s a t = some (s, 0)) := by
  refine ⟨smooth_series_frame_aux, ?_⟩
  intro fuel s a t h
  have hp := smoothPass_short (s := s) a t h
  have hz : (smoothPass s a t).2 = 0 := by rw [hp]
  rw [smooth_series_zero_fix fuel s a t hz, hp]

/-- Witness for C9: a two-element series is a fixed point, and the frame
conditions hold for its run. -/
theorem smooth_series_frame_witness :
    (([(2:ℚ), 3] : List ℚ).length = ([(2:ℚ), 3] : List ℚ).length ∧
      ([(2:ℚ), 3] : List ℚ).head? = ([(2:ℚ), 3] : List ℚ).head? ∧
      ([(2:ℚ), 3] : List ℚ).getLast? = ([(2:ℚ), 3] : List ℚ).getLast?) ∧
    smooth_series 0 [(2:ℚ), 3] (1/20) (3/20) = some ([(2:ℚ), 3], 0) :=
  ⟨smooth_series_frame.1 0 [(2:ℚ), 3] (1/20) (3/20) [(2:ℚ), 3] 0 (by rfl),
   smooth_series_frame.2 0 [(2:ℚ), 3] (1/20) (3/20) (by decide)⟩

/-- C7 counterexample: in non-raising mode a non-2xx HTTP response with a
JSON body is not degraded to the empty response: raise_for_status is
skipped, so call returns the failure's payload. -/
theorem call_non2xx_payload_cex :
    (call (σ := Unit) id (HttpResult.resp false (some (Json.num 7))) false ()).1
      = Except.ok (Json.num 7) ∧ Json.num 7 ≠ jsonEmpty :=
  ⟨rfl, fun h => Json.noConfusion h⟩

/-- C7 amended: in non-raising mode call returns the empty object exactly
for request-level exceptions (timeouts, connection errors); any HTTP
response, 2xx or not, has its parsed body returned (the empty object when
the body is empty).  In raising mode both exceptions and non-2xx
responses surface as errors, and 2xx responses return their body. -/
theorem call_error_modes {σ : Type} (acq : σ → σ) (st : σ) :
    (call acq HttpResult.exn false st).1 = Except.ok jsonEmpty ∧
    (∀ (ok2xx : Bool) (body : Option Json),
      (call acq (HttpResult.resp ok2xx body) false st).1 = Except.ok (body.getD jsonEmpty)) ∧
    (call acq HttpResult.exn true st).1 = Except.error () ∧
    (∀ body : Option Json,
      (call acq (HttpResult.resp false body) true st).1 = Except.error ()) ∧
    (∀ body : Option Json,
      (call acq (HttpResult.resp true body) true st).1 = Except.ok (body.getD jsonEmpty)) := by
  refine ⟨rfl, ?_, rfl, ?_, ?_⟩
  · intro ok2xx body
    cases body <;> rfl
  · intro body
    rfl
  · intro body
    cases body <;> rfl

/-- C10: batch_call on an empty call sequence returns the empty result
list and leaves the credential pool state untouched: no acquisition runs
and no issuance is recorded. -/
theorem batch_call_empty_noop {σ : Type} (acq : σ → σ) (respond : Nat → HttpResult)
    (raiseOnError : Bool) (st : σ) :
    batch_call acq respond raiseOnError [] st = (Except.ok [], st) := rfl

theorem alGet_alSet_self {β : Type} (k : String) (v : β) :
    ∀ d : List (String × β), alGet k (alSet k v d) = some v := by
  intro d
  induction d with
  | nil => simp [alSet, alGet]
  | cons p tl IH => by_cases h : p.1 = k <;> simp [alSet, alGet, h, IH]

theorem alGet_alSet_ne {β : Type} {k q : String} (hne : q ≠ k) (v : β) :
    ∀ d : List (String × β), alGet q (alSet k v d) = alGet q d := by
  intro d
  induction d with
  | nil => simp [alSet, alGet, Ne.symm hne]
  | cons p tl IH => by_cases h : p.1 = k <;> simp [alSet, alGet, h, IH, Ne.symm hne]

theorem tryAcquireAux_usage (keys : List String) (now : ℚ) :
    ∀ (fuel : Nat) (st : PoolState) (k : String) (st2 : PoolState),
      tryAcquireAux keys now fuel st = some (k, st2) →
      st2.usage = alSet k (dequePush RATE_CAP ((alGet k st.usage).getD []) now) st.usage := by
  intro fuel
  induction fuel with
  | zero => intro st k st2 h; cases h
  | succ fuel IH =>
      intro st k st2 h
      simp only [tryAcquireAux] at h
      split at h
      · have h2 := Option.some.inj h
        injection h2 with hk hst
        rw [← hk, ← hst]
      · split at h
        · have h2 := Option.some.inj h
          injection h2 with hk hst
          rw [← hk, ← hst]
        · exact IH ⟨st.usage, st.cursor + 1⟩ k st2 h

theorem dequePush_length_le (d : List ℚ) (tm : ℚ) :
    (dequePush RATE_CAP d tm).length ≤ RATE_CAP := by
  simp only [dequePush]
  split
  · rw [List.length_drop]
    omega
  · rename_i h
    omega

theorem alGet_init (k : String) :
    ∀ keys : List String,
      (alGet k (keys.map (fun q => (q, ([] : List ℚ))))).getD [] = [] := by
  intro keys
  induction keys with
  | nil => rfl
  | cons q tl IH => by_cases h : q = k <;> simp [alGet, h, IH]

/-- C8: in every reachable pool state each credential records at most
RATE_CAP issuance timestamps, hence at most RATE_CAP issuances fall into
any trailing window; a record is appended only on a successful acquire,
and dequePush evicts the oldest entry at capacity. -/
theorem credential_usage_bounded (keys : List String) (st : PoolState)
    (h : Reach keys st) (k : String) (now : ℚ) :
    (usageOf st k).length ≤ RATE_CAP ∧ windowCount now (usageOf st k) ≤ RATE_CAP := by
  have hlen : (usageOf st k).length ≤ RATE_CAP := by
    induction h with
    | init =>
        simp only [usageOf, initState, alGet_init]
        exact Nat.zero_le RATE_CAP
    | step st' now' k' st2 hr htry IH =>
        have husage := tryAcquireAux_usage keys now' keys.length st' k' st2 htry
        by_cases hk : k = k'
        · subst hk
          simp only [usageOf, husage, alGet_alSet_self, Option.getD_some]
          exact dequePush_length_le _ _
        · simp only [usageOf, husage, alGet_alSet_ne hk]
          exact IH
  refine ⟨hlen, ?_⟩
  exact le_trans (List.length_filter_le _ _) hlen

/-- Witness for C8: the state after one successful acquisition on a
single-credential pool. -/
theorem credential_usage_bounded_witness :
    (usageOf ⟨[("a", [(0:ℚ)])], 1⟩ "a").length ≤ RATE_CAP ∧
    windowCount 0 (usageOf ⟨[("a", [(0:ℚ)])], 1⟩ "a") ≤ RATE_CAP :=
  credential_usage_bounded ["a"] ⟨[("a", [(0:ℚ)])], 1⟩
    (Reach.step (initState ["a"]) 0 "a" ⟨[("a", [(0:ℚ)])], 1⟩ Reach.init (by rfl)) "a" 0

theorem metric_step_eq (e2 : List (String × List ℚ)) (metric : String) (acc : List ℚ) :
    (match alGet metric e2 with
      | some l => acc ++ l.filter (fun x => decide (EPS < x))
      | none => acc)
    = acc ++ ((alGet metric e2).getD []).filter (fun x => decide (EPS < x)) := by
  cases alGet metric e2 <;> simp

theorem inner_collect_eq (e2 : List (String × List ℚ)) (acc : List ℚ) :
    PP_METRICS.foldl (fun acc2 metric =>
      match alGet metric e2 with
      | some l => acc2 ++ l.filter (fun x => decide (EPS < x))
      | none => acc2) acc
    = acc ++ PP_METRICS.flatMap (fun metric =>
        ((alGet metric e2).getD []).filter (fun x => decide (EPS < x))) := by
  simp only [PP_METRICS, List.foldl_cons, List.foldl_nil, List.flatMap_cons,
    List.flatMap_nil, metric_step_eq, List.append_assoc, List.append_nil]

theorem foldl_append_flatMap {α : Type} (g : α → List ℚ) :
    ∀ (l : List α) (init : List ℚ),
      l.foldl (fun acc x => acc ++ g x) init = init ++ l.flatMap g
  | [], init => by simp
  | x :: tl, init => by
      simp only [List.foldl_cons, List.flatMap_cons]
      rw [foldl_append_flatMap g tl (init ++ g x), List.append_assoc]

theorem outer_collect_eq :
    ∀ (l : List (String × List (String × List ℚ))) (init : List ℚ),
      l.foldl (fun acc e =>
        PP_METRICS.foldl (fun acc2 metric =>
          match alGet metric e.2 with
          | some lv => acc2 ++ lv.filter (fun x => decide (EPS < x))
          | none => acc2) acc) init
      = init ++ l.flatMap (fun e => PP_METRICS.flatMap (fun metric =>
          ((alGet metric e.2).getD []).filter (fun x => decide (EPS < x)))) := by
  intro l init
  have hfn : (fun (acc : List ℚ) (e : String × List (String × List ℚ)) =>
      PP_METRICS.foldl (fun acc2 metric =>
        match alGet metric e.2 with
        | some lv => acc2 ++ lv.filter (fun x => decide (EPS < x))
        | none => acc2) acc)
      = fun acc e => acc ++ PP_METRICS.flatMap (fun metric =>
          ((alGet metric e.2).getD []).filter (fun x => decide (EPS < x))) :=
    funext fun acc => funext fun e => inner_collect_eq e.2 acc
  rw [hfn]
  exact foldl_append_flatMap _ l init

/-- C6 amended: the code's threshold derivation equals the spec-shaped
derivation restricted to the three profitability metrics min_pp, avg_pp
and max_pp: collect exactly their samples above the epsilon, fall back to
(0.05, 0.15) on an empty collection, and otherwise return the median
scaled by 0.45 and 1.35. -/
theorem get_global_thresholds_characterization (data : History) :
    get_global_thresholds data = thresholdsOfSamples (collectPP data) := by
  simp only [get_global_thresholds, thresholdsOfSamples, collectPP,
    outer_collect_eq, List.nil_append]

/-- C6 counterexample: a store whose only metric is named otherwise has
its positive samples ignored by the code, which returns the fallback
pair, while the spec's every-metric collection would return the
median-scaled pair. -/
theorem get_global_thresholds_ignores_other_metrics_cex :
    get_global_thresholds ⟨[1], [("a", [("foo", [1])])]⟩ = (5/100, 15/100) ∧
    deriveThresholdsSpec ⟨[1], [("a", [("foo", [1])])]⟩
      = (median [1] * GLOBAL_COEF_MIN, median [1] * GLOBAL_COEF_THRESH) ∧
    median [1] * GLOBAL_COEF_MIN ≠ 5/100 := by
  refine ⟨?_, ?_, ?_⟩
  · have h : collectPP ⟨[1], [("a", [("foo", [1])])]⟩ = [] := by
      simp [collectPP, PP_METRICS, alGet]
    rw [get_global_thresholds_characterization, h]
    rfl
  · have h : ([("foo", [(1:ℚ)])] : List (String × List ℚ)).flatMap
        (fun m => m.2.filter (fun x => decide (EPS < x))) = [1] := by
      simp [EPS]
      norm_num
    simp only [deriveThresholdsSpec, List.flatMap_cons, List.flatMap_nil, h,
      List.append_nil, thresholdsOfSamples]
    rw [if_neg (by simp)]
  · have hm : median [1] = 1 := by rfl
    rw [hm, GLOBAL_COEF_MIN]
    norm_num

theorem numChunks_pos {calls : List Call} (h : calls ≠ []) : 0 < numChunks calls := by
  have hl : 0 < calls.length := List.length_pos.mpr h
  simp only [numChunks, BATCH_SIZE]
  omega

theorem numChunks_drop {calls : List Call} (h : calls ≠ []) :
    numChunks (calls.drop BATCH_SIZE) = numChunks calls - 1 := by
  have hl : 0 < calls.length := List.length_pos.mpr h
  simp only [numChunks, BATCH_SIZE, List.length_drop]
  omega

theorem chunkLen_drop (calls : List Call) (i : Nat) :
    chunkLen (calls.drop BATCH_SIZE) i = chunkLen calls (i + 1) := by
  simp only [chunkLen, BATCH_SIZE, List.length_drop]
  omega

theorem expectedElemAt_shift (respond : Nat → HttpResult) (idx j : Nat)
    (h : BATCH_SIZE ≤ j) :
    expectedElemAt respond (idx + 1) (j - BATCH_SIZE) = expectedElemAt respond idx j := by
  have h1 : idx + 1 + (j - BATCH_SIZE) / BATCH_SIZE = idx + j / BATCH_SIZE := by
    simp only [BATCH_SIZE] at h ⊢
    omega
  have h2 : (j - BATCH_SIZE) % BATCH_SIZE = j % BATCH_SIZE := by
    simp only [BATCH_SIZE] at h ⊢
    omega
  unfold expectedElemAt
  simp only [h1, h2]

theorem expectedElemAt_default (respond : Nat → HttpResult) (idx j : Nat)
    (hj : j < BATCH_SIZE)
    (h : match respond idx with
         | HttpResult.resp _ (some (Json.arr _)) => False
         | _ => True) :
    expectedElemAt respond idx j = jsonEmpty := by
  unfold expectedElemAt
  rw [Nat.div_eq_of_lt hj, Nat.add_zero]
  cases hx : respond idx with
  | exn => rfl
  | resp ok2 body =>
      cases body with
      | none => rfl
      | some j0 =>
          cases j0 with
          | arr xs => rw [hx] at h; exact h.elim
          | null => rfl
          | num q => rfl
          | str s => rfl
          | obj fields => rfl

theorem getD_replicate_json :
    ∀ (len j : Nat), j < len →
      (List.replicate len jsonEmpty).getD j Json.null = jsonEmpty
  | 0, j, h => absurd h (Nat.not_lt_zero j)
  | len + 1, 0, _ => rfl
  | len + 1, j + 1, h => by
      rw [List.replicate_succ]
      exact getD_replicate_json len j (by omega)

theorem chunk_concat_spec (respond : Nat → HttpResult) (idx : Nat)
    (c : Call) (rest : List Call) (first res2 : List Json)
    (hfl : first.length = chunkLen (c :: rest) 0)
    (hfv : ∀ j, j < first.length → first.getD j Json.null = expectedElemAt respond idx j)
    (hl2 : res2.length = ((c :: rest).drop BATCH_SIZE).length)
    (hc2 : ∀ j, j < ((c :: rest).drop BATCH_SIZE).length →
      res2.getD j Json.null = expectedElemAt respond (idx + 1) j) :
    (first ++ res2).length = (c :: rest).length ∧
    ∀ j, j < (c :: rest).length →
      (first ++ res2).getD j Json.null = expectedElemAt respond idx j := by
  have hflen : first.length = min BATCH_SIZE (c :: rest).length := by
    rw [hfl]
    simp [chunkLen]
  have hdl : ((c :: rest).drop BATCH_SIZE).length = (c :: rest).length - BATCH_SIZE :=
    List.length_drop _ _
  constructor
  · rw [List.length_append, hflen, hl2, hdl]
    simp only [BATCH_SIZE]
    have hcons : 0 < (c :: rest).length := by simp
    omega
  · intro j hj
    by_cases hjf : j < first.length
    · rw [List.getD_append _ _ _ _ hjf]
      exact hfv j hjf
    · have hjf2 : first.length ≤ j := Nat.le_of_not_lt hjf
      have hfull : first.length = BATCH_SIZE := by
        rw [hflen]
        rw [hflen] at hjf2
        simp only [BATCH_SIZE] at hjf2 ⊢
        omega
      rw [List.getD_append_right _ _ _ _ hjf2, hfull]
      have hjr : j - BATCH_SIZE < ((c :: rest).drop BATCH_SIZE).length := by
        rw [hdl]
        rw [hfull] at hjf2
        omega
      rw [hc2 (j - BATCH_SIZE) hjr]
      exact expectedElemAt_shift respond idx j (by rw [hfull] at hjf2; exact hjf2)

theorem chunkPlaceholders_length (n : Nat) : (chunkPlaceholders n).length = n :=
  List.length_replicate _ _

theorem chunkPlaceholders_getD (n j : Nat) (h : j < n) :
    (chunkPlaceholders n).getD j Json.null = jsonEmpty :=
  getD_replicate_json n j h

theorem placeholders_val (respond : Nat → HttpResult) (idx : Nat) (c : Call)
    (rest : List Call)
    (hdef : match respond idx with
            | HttpResult.resp _ (some (Json.arr _)) => False
            | _ => True) :
    ∀ j, j < (chunkPlaceholders ((c :: rest).take BATCH_SIZE).length).length →
      (chunkPlaceholders ((c :: rest).take BATCH_SIZE).length).getD j Json.null
        = expectedElemAt respond idx j := by
  intro j hj
  rw [chunkPlaceholders_length] at hj
  have hj50 : j < BATCH_SIZE := by
    rw [List.length_take] at hj
    omega
  rw [chunkPlaceholders_getD _ j hj]
  exact (expectedElemAt_default respond idx j hj50 hdef).symm

theorem arr_val (respond : Nat → HttpResult) (idx : Nat) (ok2 : Bool) (xs : List Json)
    (hR : respond idx = HttpResult.resp ok2 (some (Json.arr xs)))
    (hlt : xs.length ≤ BATCH_SIZE) :
    ∀ j, j < xs.length → xs.getD j Json.null = expectedElemAt respond idx j := by
  intro j hj
  have hj50 : j < BATCH_SIZE := lt_of_lt_of_le hj hlt
  unfold expectedElemAt
  rw [Nat.div_eq_of_lt hj50, Nat.add_zero, hR]
  show xs.getD j Json.null = xs.getD (j % BATCH_SIZE) Json.null
  rw [Nat.mod_eq_of_lt hj50]

theorem batchCallAux_spec {σ : Type} (acq : σ → σ) (respond : Nat → HttpResult)
    (ro : Bool) :
    ∀ (fuel : Nat) (calls : List Call) (idx : Nat) (st : σ),
      calls.length ≤ fuel →
      (∀ i, i < numChunks calls → WellShaped (respond (idx + i)) (chunkLen calls i)) →
      (ro = true → ∀ i, i < numChunks calls →
        ∃ xs, respond (idx + i) = HttpResult.resp true (some (Json.arr xs))) →
      ∃ res st2,
        batchCallAux acq respond ro fuel idx calls st = (Except.ok res, st2) ∧
        res.length = calls.length ∧
        ∀ j, j < calls.length → res.getD j Json.null = expectedElemAt respond idx j := by
  intro fuel
  induction fuel with
  | zero =>
      intro calls idx st hlen hshape hraise
      have hnil : calls = [] := List.length_eq_zero.mp (Nat.le_zero.mp hlen)
      subst hnil
      exact ⟨[], st, rfl, rfl, fun j hj => absurd hj (by simp)⟩
  | succ fuel IH =>
      intro calls idx st hlen hshape hraise
      cases calls with
      | nil => exact ⟨[], st, rfl, rfl, fun j hj => absurd hj (by simp)⟩
      | cons c rest =>
          have hne : (c :: rest : List Call) ≠ [] := by simp
          have hpos : 0 < numChunks (c :: rest) := numChunks_pos hne
          have hshape0 : WellShaped (respond idx) (chunkLen (c :: rest) 0) := by
            have h2 := hshape 0 hpos
            rwa [Nat.add_zero] at h2
          have hlen2 : ((c :: rest).drop BATCH_SIZE).length ≤ fuel := by
            rw [List.length_drop]
            simp only [List.length_cons] at hlen ⊢
            simp only [BATCH_SIZE]
            omega
          have hshape2 : ∀ i, i < numChunks ((c :: rest).drop BATCH_SIZE) →
              WellShaped (respond (idx + 1 + i)) (chunkLen ((c :: rest).drop BATCH_SIZE) i) := by
            intro i hi
            rw [numChunks_drop hne] at hi
            rw [chunkLen_drop]
            have h2 := hshape (i + 1) (by omega)
            rwa [show idx + (i + 1) = idx + 1 + i by omega] at h2
          have hraise2 : ro = true → ∀ i, i < numChunks ((c :: rest).drop BATCH_SIZE) →
              ∃ xs, respond (idx + 1 + i) = HttpResult.resp true (some (Json.arr xs)) := by
            intro hro i hi
            rw [numChunks_drop hne] at hi
            have h2 := hraise hro (i + 1) (by omega)
            rwa [show idx + (i + 1) = idx + 1 + i by omega] at h2
          obtain ⟨res2, st2, hres2, hreslen, hrescorr⟩ :=
            IH ((c :: rest).drop BATCH_SIZE) (idx + 1) (acq st) hlen2 hshape2 hraise2
          have hplen : (chunkPlaceholders ((c :: rest).take BATCH_SIZE).length).length
              = chunkLen (c :: rest) 0 := by
            rw [chunkPlaceholders_length, List.length_take]
            simp [chunkLen]
          cases hR : respond idx with
          | exn =>
              cases ro with
              | true =>
                  obtain ⟨xs, hxs⟩ := hraise rfl 0 hpos
                  rw [Nat.add_zero, hR] at hxs
                  exact HttpResult.noConfusion hxs
              | false =>
                  obtain ⟨hL, hC⟩ := chunk_concat_spec respond idx c rest
                    (chunkPlaceholders ((c :: rest).take BATCH_SIZE).length) res2 hplen
                    (placeholders_val respond idx c rest (by rw [hR]; trivial))
                    hreslen hrescorr
                  refine ⟨_, st2, ?_, hL, hC⟩
                  conv_lhs => rw [batchCallAux]
                  simp [hR, hres2]
          | resp ok2 body =>
              cases ro with
              | true =>
                  obtain ⟨xs, hxs⟩ := hraise rfl 0 hpos
                  rw [Nat.add_zero, hR] at hxs
                  injection hxs with hok hbody
                  subst hok
                  subst hbody
                  have hxlen : xs.length = chunkLen (c :: rest) 0 := by
                    rw [hR] at hshape0
                    exact hshape0
                  obtain ⟨hL, hC⟩ := chunk_concat_spec respond idx c rest xs res2 hxlen
                    (arr_val respond idx true xs hR (by rw [hxlen]; simp [chunkLen]))
                    hreslen hrescorr
                  refine ⟨xs ++ res2, st2, ?_, hL, hC⟩
                  conv_lhs => rw [batchCallAux]
                  simp [hR, hres2]
              | false =>
                  cases body with
                  | none =>
                      rw [hR] at hshape0
                      exact hshape0.elim
                  | some j0 =>
                      cases j0 with
                      | arr xs =>
                          have hxlen : xs.length = chunkLen (c :: rest) 0 := by
                            rw [hR] at hshape0
                            exact hshape0
                          obtain ⟨hL, hC⟩ := chunk_concat_spec respond idx c rest xs res2 hxlen
                            (arr_val respond idx ok2 xs hR (by rw [hxlen]; simp [chunkLen]))
                            hreslen hrescorr
                          refine ⟨xs ++ res2, st2, ?_, hL, hC⟩
                          conv_lhs => rw [batchCallAux]
                          simp [hR, hres2]
                      | null =>
                          obtain ⟨hL, hC⟩ := chunk_concat_spec respond idx c rest
                            (chunkPlaceholders ((c :: rest).take BATCH_SIZE).length) res2 hplen
                            (placeholders_val respond idx c rest (by rw [hR]; trivial))
                            hreslen hrescorr
                          refine ⟨_, st2, ?_, hL, hC⟩
                          conv_lhs => rw [batchCallAux]
                          simp [hR, hres2]
                      | num q =>
                          obtain ⟨hL, hC⟩ := chunk_concat_spec respond idx c rest
                            (chunkPlaceholders ((c :: rest).take BATCH_SIZE).length) res2 hplen
                            (placeholders_val respond idx c rest (by rw [hR]; trivial))
                            hreslen hrescorr
                          refine ⟨_, st2, ?_, hL, hC⟩
                          conv_lhs => rw [batchCallAux]
                          simp [hR, hres2]
                      | str s =>
                          obtain ⟨hL, hC⟩ := chunk_concat_spec respond idx c rest
                            (chunkPlaceholders ((c :: rest).take BATCH_SIZE).length) res2 hplen
                            (placeholders_val respond idx c rest (by rw [hR]; trivial))
                            hreslen hrescorr
                          refine ⟨_, st2, ?_, hL, hC⟩
                          conv_lhs => rw [batchCallAux]
                          simp [hR, hres2]
                      | obj fields =>
                          obtain ⟨hL, hC⟩ := chunk_concat_spec respond idx c rest
                            (chunkPlaceholders ((c :: rest).take BATCH_SIZE).length) res2 hplen
                            (placeholders_val respond idx c rest (by rw [hR]; trivial))
                            hreslen hrescorr
                          refine ⟨_, st2, ?_, hL, hC⟩
                          conv_lhs => rw [batchCallAux]
                          simp [hR, hres2]

/-- C1 amended: provided every response body obeys the wire-shape
contract (an array body carries exactly one element per chunk call and
bodies are never empty) and, in raising mode, every chunk gets a 2xx
array response (no transport failure), batch_call returns exactly one
result per logical call, chunk concatenation preserving input order
across chunk boundaries.  Without the shape assumption the code does not
detect wrong-length or empty-body array responses, so the length
guarantee fails (see the counterexample). -/
theorem batch_call_length_order {σ : Type} (acq : σ → σ) (respond : Nat → HttpResult)
    (ro : Bool) (calls : List Call) (st : σ)
    (hshape : ∀ i, i < numChunks calls → WellShaped (respond i) (chunkLen calls i))
    (hraise : ro = true → ∀ i, i < numChunks calls →
      ∃ xs, respond i = HttpResult.resp true (some (Json.arr xs))) :
    ∃ res st2,
      batch_call acq respond ro calls st = (Except.ok res, st2) ∧
      res.length = calls.length ∧
      ∀ j, j < calls.length → res.getD j Json.null = expectedElemAt respond 0 j := by
  cases calls with
  | nil => exact ⟨[], st, rfl, rfl, fun j hj => absurd hj (by simp)⟩
  | cons c rest =>
      have h0 : ∀ i, i < numChunks (c :: rest) →
          WellShaped (respond (0 + i)) (chunkLen (c :: rest) i) := by
        intro i hi
        rw [Nat.zero_add]
        exact hshape i hi
      have h1 : ro = true → ∀ i, i < numChunks (c :: rest) →
          ∃ xs, respond (0 + i) = HttpResult.resp true (some (Json.arr xs)) := by
        intro hro i hi
        rw [Nat.zero_add]
        exact hraise hro i hi
      exact batchCallAux_spec acq respond ro (c :: rest).length (c :: rest) 0 st
        (Nat.le_refl _) h0 h1

/-- Witness for C1: a single chunk of two calls answered by a two-element
array in raising mode. -/
theorem batch_call_length_order_witness :
    ∃ res st2,
      batch_call (σ := Unit) id
        (fun _ => HttpResult.resp true (some (Json.arr [Json.null, Json.num 3]))) true
        [(("m", jsonEmpty) : Call), (("n", jsonEmpty) : Call)] () = (Except.ok res, st2) ∧
      res.length = [(("m", jsonEmpty) : Call), (("n", jsonEmpty) : Call)].length ∧
      ∀ j, j < [(("m", jsonEmpty) : Call), (("n", jsonEmpty) : Call)].length →
        res.getD j Json.null = expectedElemAt
          (fun _ => HttpResult.resp true (some (Json.arr [Json.null, Json.num 3]))) 0 j :=
  batch_call_length_order id
    (fun _ => HttpResult.resp true (some (Json.arr [Json.null, Json.num 3]))) true
    [(("m", jsonEmpty) : Call), (("n", jsonEmpty) : Call)] ()
    (fun i hi => by
      have hi1 : i < 1 := by simpa [numChunks, BATCH_SIZE] using hi
      have h0 : i = 0 := by omega
      subst h0
      exact rfl)
    (fun _ i hi => ⟨[Json.null, Json.num 3], rfl⟩)

/-- C1 counterexample: a 2xx response with an empty body decodes to the
empty array, which the code happily extends with, so a one-call batch
returns zero results; in non-raising mode the same happens for every
malformed or failed chunk shape that is not a well-shaped array. -/
theorem batch_call_empty_body_cex :
    (batch_call (σ := Unit) id (fun _ => HttpResult.resp true none) false
      [(("m", jsonEmpty) : Call)] ()).1 = Except.ok [] ∧
    ([] : List Json).length ≠ [(("m", jsonEmpty) : Call)].length := by
  constructor
  · rfl
  · simp

theorem foldl_alGet_untouched {β ε : Type} (keyfn : ε → String)
    (step : List (String × β) → ε → List (String × β))
    (hstep : ∀ acc p q, q ≠ keyfn p → alGet q (step acc p) = alGet q acc) :
    ∀ (l : List ε) (acc : List (String × β)) (e : String),
      e ∉ l.map keyfn → alGet e (l.foldl step acc) = alGet e acc := by
  intro l
  induction l with
  | nil => intro acc e _; rfl
  | cons p tl IH =>
      intro acc e h
      simp only [List.map_cons, List.mem_cons] at h
      push_neg at h
      rw [List.foldl_cons, IH (step acc p) e h.2]
      exact hstep acc p e h.1

theorem foldl_alGet_processed {β ε : Type} (keyfn : ε → String)
    (step : List (String × β) → ε → List (String × β))
    (valAt : Option β → ε → β)
    (hstep : ∀ acc p q, q ≠ keyfn p → alGet q (step acc p) = alGet q acc)
    (hstep2 : ∀ acc p, alGet (keyfn p) (step acc p) = some (valAt (alGet (keyfn p) acc) p)) :
    ∀ (l : List ε) (acc : List (String × β)) (p : ε),
      (l.map keyfn).Nodup → p ∈ l →
      alGet (keyfn p) (l.foldl step acc) = some (valAt (alGet (keyfn p) acc) p) := by
  intro l
  induction l with
  | nil => intro acc p _ hp; cases hp
  | cons q tl IH =>
      intro acc p hnd hp
      simp only [List.map_cons, List.nodup_cons] at hnd
      rw [List.foldl_cons]
      rcases List.mem_cons.mp hp with h | h
      · subst h
        rw [foldl_alGet_untouched keyfn step hstep tl (step acc p) (keyfn p) hnd.1]
        exact hstep2 acc p
      · have hne : keyfn p ≠ keyfn q := by
          intro heq
          exact hnd.1 (heq ▸ List.mem_map_of_mem keyfn h)
        rw [IH (step acc q) p hnd.2 h, hstep acc q (keyfn p) hne]

theorem alGet_mem {β : Type} {k : String} {v : β} :
    ∀ {d : List (String × β)}, alGet k d = some v → (k, v) ∈ d := by
  intro d
  induction d with
  | nil => intro h; cases h
  | cons p tl IH =>
      intro h
      rw [alGet] at h
      by_cases hk : p.1 = k
      · simp only [hk, beq_self_eq_true, if_true] at h
        have hv : p.2 = v := Option.some.inj h
        have hp : p = (k, v) := by
          rw [← hk, ← hv]
        rw [← hp]
        exact List.mem_cons_self p tl
      · simp only [show (p.1 == k) = false by simpa using hk, Bool.false_eq_true,
          if_false] at h
        exact List.mem_cons_of_mem p (IH h)

theorem alGet_mem_keys {β : Type} {k : String} {v : β} {d : List (String × β)}
    (h : alGet k d = some v) : k ∈ d.map Prod.fst := by
  have := alGet_mem h
  exact List.mem_map_of_mem Prod.fst this

theorem alGet_map_snd {β γ : Type} (g : β → γ) (k : String) :
    ∀ d : List (String × β),
      alGet k (d.map (fun p => (p.1, g p.2))) = (alGet k d).map g := by
  intro d
  induction d with
  | nil => rfl
  | cons p tl IH =>
      by_cases h : p.1 = k <;> simp [alGet, h, IH]

theorem takeRight_length {α : Type} (n : Nat) (l : List α) :
    (takeRight n l).length = min n l.length := by
  simp only [takeRight, List.length_drop]
  omega

theorem append_metrics_decomp (ts : Nat) (hist : History)
    (cur : List (String × List (String × ℚ))) (mkeys : List String) :
    append_metrics ts hist cur mkeys =
      (if MAX_HISTORY_POINTS < (hist.labels ++ [ts]).length then
        ⟨takeRight MAX_HISTORY_POINTS (hist.labels ++ [ts]),
         (updateItems mkeys ((hist.labels ++ [ts]).length - 1) cur
            (ensureItems cur hist.items)).map
           (fun e => (e.1, e.2.map (fun m => (m.1, takeRight MAX_HISTORY_POINTS m.2))))⟩
      else
        ⟨hist.labels ++ [ts],
         updateItems mkeys ((hist.labels ++ [ts]).length - 1) cur
           (ensureItems cur hist.items)⟩) := rfl

theorem ensureItems_untouched (cur : List (String × List (String × ℚ)))
    (items0 : List (String × List (String × List ℚ))) (e : String)
    (he : e ∉ cur.map Prod.fst) :
    alGet e (ensureItems cur items0) = alGet e items0 := by
  unfold ensureItems
  exact foldl_alGet_untouched Prod.fst _
    (fun acc p q hne => by
      split
      · rfl
      · exact alGet_alSet_ne hne [] acc)
    cur items0 e he

theorem ensureItems_processed (cur : List (String × List (String × ℚ)))
    (items0 : List (String × List (String × List ℚ)))
    (hnd : (cur.map Prod.fst).Nodup)
    (p : String × List (String × ℚ)) (hp : p ∈ cur) :
    alGet p.1 (ensureItems cur items0) = some ((alGet p.1 items0).getD []) := by
  unfold ensureItems
  exact foldl_alGet_processed Prod.fst _ (fun o _ => o.getD [])
    (fun acc p q hne => by
      split
      · rfl
      · exact alGet_alSet_ne hne [] acc)
    (fun acc p => by
      cases ho : alGet p.1 acc with
      | some v => simp [ho]
      | none => simp [ho, alGet_alSet_self])
    cur items0 p hnd hp

theorem updateItemHist_mem (mkeys : List String) (hnd : mkeys.Nodup) (padn : Nat)
    (em : List (String × ℚ)) (ih : List (String × List ℚ)) (m : String)
    (hm : m ∈ mkeys) :
    alGet m (updateItemHist mkeys padn em ih)
      = some ((match alGet m ih with
               | some s => s
               | none => List.replicate padn 0) ++ [(alGet m em).getD 0]) := by
  unfold updateItemHist
  exact foldl_alGet_processed (fun k : String => k) _
    (fun o key => (match o with
                   | some s => s
                   | none => List.replicate padn 0) ++ [(alGet key em).getD 0])
    (fun acc p q hne => alGet_alSet_ne hne _ acc)
    (fun acc p => alGet_alSet_self p _ acc)
    mkeys ih m (by simpa using hnd) hm

theorem updateItemHist_not_mem (mkeys : List String) (padn : Nat)
    (em : List (String × ℚ)) (ih : List (String × List ℚ)) (m : String)
    (hm : m ∉ mkeys) :
    alGet m (updateItemHist mkeys padn em ih) = alGet m ih := by
  unfold updateItemHist
  exact foldl_alGet_untouched (fun k : String => k) _
    (fun acc p q hne => alGet_alSet_ne hne _ acc) mkeys ih m (by simpa using hm)

theorem updateItems_untouched (mkeys : List String) (padn : Nat)
    (cur : List (String × List (String × ℚ)))
    (items1 : List (String × List (String × List ℚ))) (e : String)
    (he : e ∉ cur.map Prod.fst) :
    alGet e (updateItems mkeys padn cur items1) = alGet e items1 := by
  unfold updateItems
  exact foldl_alGet_untouched Prod.fst _
    (fun acc p q hne => alGet_alSet_ne hne _ acc) cur items1 e he

theorem updateItems_processed (mkeys : List String) (padn : Nat)
    (cur : List (String × List (String × ℚ)))
    (items1 : List (String × List (String × List ℚ)))
    (hnd : (cur.map Prod.fst).Nodup)
    (p : String × List (String × ℚ)) (hp : p ∈ cur) :
    alGet p.1 (updateItems mkeys padn cur items1)
      = some (updateItemHist mkeys padn p.2 ((alGet p.1 items1).getD [])) := by
  unfold updateItems
  exact foldl_alGet_processed Prod.fst _
    (fun o p => updateItemHist mkeys padn p.2 (o.getD []))
    (fun acc p q hne => alGet_alSet_ne hne _ acc)
    (fun acc p => alGet_alSet_self p.1 _ acc)
    cur items1 p hnd hp

/-- C2 amended: appending a snapshot preserves the all-lengths-equal
invariant provided the snapshot covers every entity already present in
the store (the code only appends to entities of the snapshot), the
store's metric keys all belong to the configured metric-key list, and
the snapshot and key list are duplicate-free as Python dicts are.
Brand-new entities are back-filled with zeros for every prior timestamp.
Entities present in the store but omitted from the snapshot keep their
old, now too-short sequences (see the counterexample). -/
theorem append_metrics_length_invariant (ts : Nat) (hist : History)
    (cur : List (String × List (String × ℚ))) (mkeys : List String)
    (h1 : ∀ e ih, alGet e hist.items = some ih →
      ∀ m s, alGet m ih = some s → s.length = hist.labels.length)
    (h2 : ∀ e ih, alGet e hist.items = some ih →
      ∀ m, (alGet m ih).isSome = true → m ∈ mkeys)
    (h3 : ∀ e, (alGet e hist.items).isSome = true → e ∈ cur.map Prod.fst)
    (h4 : (cur.map Prod.fst).Nodup)
    (h5 : mkeys.Nodup) :
    (append_metrics ts hist cur mkeys).labels.length
        = min (hist.labels.length + 1) MAX_HISTORY_POINTS ∧
    (∀ e ih, alGet e (append_metrics ts hist cur mkeys).items = some ih →
      ∀ m s, alGet m ih = some s →
        s.length = (append_metrics ts hist cur mkeys).labels.length) ∧
    (hist.labels.length + 1 ≤ MAX_HISTORY_POINTS →
      ∀ e em, alGet e cur = some em → alGet e hist.items = none →
        ∀ m, m ∈ mkeys →
          alGet m ((alGet e (append_metrics ts hist cur mkeys).items).getD [])
            = some (List.replicate hist.labels.length 0 ++ [(alGet m em).getD 0])) := by
  have hlen1 : (hist.labels ++ [ts]).length = hist.labels.length + 1 := by simp
  have hpad : (hist.labels ++ [ts]).length - 1 = hist.labels.length := by simp
  have hcore : ∀ (e : String) (ih2 : List (String × List ℚ)),
      alGet e (updateItems mkeys ((hist.labels ++ [ts]).length - 1) cur
        (ensureItems cur hist.items)) = some ih2 →
      ∀ m s, alGet m ih2 = some s → s.length = hist.labels.length + 1 := by
    intro e ih2 hih2 m s hms
    by_cases he : e ∈ cur.map Prod.fst
    case neg =>
      rw [updateItems_untouched _ _ _ _ e he, ensureItems_untouched _ _ e he] at hih2
      exact absurd (h3 e (by rw [hih2]; rfl)) he
    case pos =>
      obtain ⟨p, hp, hpe⟩ := List.mem_map.mp he
      rw [← hpe] at hih2
      rw [updateItems_processed _ _ _ _ h4 p hp,
        ensureItems_processed _ _ h4 p hp] at hih2
      simp only [Option.getD_some] at hih2
      have hieq : updateItemHist mkeys ((hist.labels ++ [ts]).length - 1) p.2
          ((alGet p.1 hist.items).getD []) = ih2 := Option.some.inj hih2
      rw [← hieq] at hms
      by_cases hm : m ∈ mkeys
      case pos =>
        rw [updateItemHist_mem mkeys h5 _ p.2 _ m hm] at hms
        have hs := Option.some.inj hms
        rw [← hs, List.length_append]
        cases hhist : alGet p.1 hist.items with
        | none =>
            simp only [hhist, Option.getD_none]
            simp [alGet, hpad]
        | some ih0 =>
            simp only [hhist, Option.getD_some]
            cases hm0 : alGet m ih0 with
            | some s0 =>
                simp only [hm0]
                rw [h1 p.1 ih0 hhist m s0 hm0]
                simp
            | none =>
                simp only [hm0]
                simp [hpad]
      case neg =>
        rw [updateItemHist_not_mem mkeys _ p.2 _ m hm] at hms
        cases hhist : alGet p.1 hist.items with
        | none =>
            rw [hhist] at hms
            simp [alGet] at hms
        | some ih0 =>
            rw [hhist] at hms
            simp only [Option.getD_some] at hms
            exact absurd (h2 p.1 ih0 hhist m (by rw [hms]; rfl)) hm
  have hback : ∀ e em, alGet e cur = some em → alGet e hist.items = none →
      alGet e (updateItems mkeys ((hist.labels ++ [ts]).length - 1) cur
        (ensureItems cur hist.items))
      = some (updateItemHist mkeys ((hist.labels ++ [ts]).length - 1) em []) := by
    intro e em hecur hehist
    have hp : ((e, em) : String × List (String × ℚ)) ∈ cur := alGet_mem hecur
    have hu := updateItems_processed mkeys ((hist.labels ++ [ts]).length - 1) cur
      (ensureItems cur hist.items) h4 (e, em) hp
    rw [ensureItems_processed cur hist.items h4 (e, em) hp] at hu
    rw [show ((e, em) : String × List (String × ℚ)).1 = e from rfl] at hu
    rw [hehist] at hu
    simpa using hu
  rw [append_metrics_decomp]
  by_cases htrim : MAX_HISTORY_POINTS < (hist.labels ++ [ts]).length
  case pos =>
    rw [if_pos htrim]
    dsimp only
    rw [hlen1] at htrim
    refine ⟨?_, ?_, ?_⟩
    · rw [takeRight_length, hlen1]
      omega
    · intro e ih hih m s hms
      rw [alGet_map_snd] at hih
      cases hit : alGet e (updateItems mkeys ((hist.labels ++ [ts]).length - 1) cur
          (ensureItems cur hist.items)) with
      | none => rw [hit] at hih; cases hih
      | some ih2 =>
          rw [hit] at hih
          simp only [Option.map_some'] at hih
          rw [← Option.some.inj hih] at hms
          rw [alGet_map_snd] at hms
          cases hm2 : alGet m ih2 with
          | none => rw [hm2] at hms; cases hms
          | some s2 =>
              rw [hm2] at hms
              simp only [Option.map_some'] at hms
              have hs2len : s2.length = hist.labels.length + 1 := hcore e ih2 hit m s2 hm2
              rw [← Option.some.inj hms, takeRight_length, hs2len, takeRight_length, hlen1]
    · intro hno
      omega
  case neg =>
    rw [if_neg htrim]
    dsimp only
    rw [hlen1] at htrim
    refine ⟨?_, ?_, ?_⟩
    · rw [hlen1]
      omega
    · intro e ih hih m s hms
      rw [hlen1]
      exact hcore e ih hih m s hms
    · intro _ e em hecur hehist m hm
      rw [hback e em hecur hehist]
      simp only [Option.getD_some]
      rw [updateItemHist_mem mkeys h5 _ em [] m hm]
      simp [alGet, hpad]

/-- C2 counterexample: a store with one entity whose metric sequence
matches the label count, and a snapshot that omits this entity.  After
the append the label count grew but the omitted entity's sequence did
not, so the invariant is broken. -/
theorem append_metrics_omitted_entity_cex :
    (∀ e ih, alGet e (History.mk [] [("a", [("m", ([] : List ℚ))])]).items = some ih →
      ∀ m s, alGet m ih = some s →
        s.length = (History.mk [] [("a", [("m", ([] : List ℚ))])]).labels.length) ∧
    ¬ (∀ e ih,
        alGet e (append_metrics 9 ⟨[], [("a", [("m", ([] : List ℚ))])]⟩ [] ["m"]).items
          = some ih →
      ∀ m s, alGet m ih = some s →
        s.length
          = (append_metrics 9 ⟨[], [("a", [("m", ([] : List ℚ))])]⟩ [] ["m"]).labels.length) := by
  constructor
  · intro e ih hih m s hms
    have hmem := alGet_mem hih
    simp only [List.mem_singleton] at hmem
    have hih2 : ih = [("m", ([] : List ℚ))] := congrArg Prod.snd hmem
    rw [hih2] at hms
    have hmem2 := alGet_mem hms
    simp only [List.mem_singleton] at hmem2
    have hs : s = [] := congrArg Prod.snd hmem2
    rw [hs]
    rfl
  · intro h
    have h2 := h "a" [("m", ([] : List ℚ))] (by rfl) "m" [] (by rfl)
    exact absurd h2 (by decide)

/-- Witness for C2 at the empty store: appending a one-entity snapshot
yields one label. -/
theorem append_metrics_length_invariant_witness :
    (append_metrics 4 ⟨[], []⟩ [("a", [("m", (5:ℚ))])] ["m"]).labels.length
        = min ((⟨[], []⟩ : History).labels.length + 1) MAX_HISTORY_POINTS :=
  (append_metrics_length_invariant 4 ⟨[], []⟩ [("a", [("m", (5:ℚ))])] ["m"]
    (fun e ih h => nomatch h)
    (fun e ih h => nomatch h)
    (fun e h => nomatch h)
    (by simp)
    (by simp)).1
